import Mathlib

/-!
Shallow embedding of `hvsrpy/hvsr_spatial.py` (spatially weighted statistics
for HVSR measurements) together with proofs about its behaviour.

Numeric values are modelled exactly: rational numbers stand in for the
floating-point values wherever the Python code only performs field
operations, and real numbers are used where transcendental functions
(`np.sqrt`, `np.exp`, `np.log`, `np.arctan2`) appear.  Lists model the
`numpy` arrays; `zip` mirrors Python's `zip` truncation semantics.
-/

namespace Hvsrpy

/-! ### The statistics engine `_statistics` (hvsr_spatial.py, lines 32-75) -/

/-- Normalization step `norm_weights = weights/np.sum(weights)` at line 56 of
`_statistics`. -/
def normalizeWeights {K : Type} [Field K] (weights : List K) : List K :=
  weights.map (fun w => w / weights.sum)

/-- Length of the first component of the last pair of the zipped
`(row_value, weight)` list.  After each Python `for`-loop of `_statistics`
the loop variable `row_value` still holds the last visited row, and the code
divides by `len(row_value)`. -/
def lastRowLen {K : Type} (pairs : List (List K × K)) : ℕ :=
  (pairs.getLast?.map (fun p => p.1.length)).getD 0

/-- Body of `_statistics` (lines 58-75) after the weight normalization of
line 56.  The two accumulator loops are modelled by `List.foldl`.  The pair
`(mean, numerator/(1-w2))` is returned; the Python code returns
`(mean, np.sqrt(numerator/(1-w2)))` and the square root is applied by
`statistics` below, so that the arithmetic core can live in any field. -/
def statisticsCore {K : Type} [Field K] (values : List (List K))
    (norm_weights : List K) : K × K :=
  let pairs := values.zip norm_weights
  let n : K := ((lastRowLen pairs : ℕ) : K)
  let mean : K := (pairs.foldl (fun acc p => acc + p.2 * p.1.sum) 0) / n
  let numerator : K :=
    (pairs.foldl
      (fun acc p => acc + p.2 * ((p.1.map (fun v => (v - mean) * (v - mean))).sum)) 0) / n
  let w2 : K := (pairs.foldl (fun acc p => acc + p.2 * p.2) 0) / n
  (mean, numerator / (1 - w2))

/-- The function `_statistics` up to the final square root: weight
normalization followed by the accumulator loops. -/
def statisticsAux {K : Type} [Field K] (values : List (List K))
    (weights : List K) : K × K :=
  statisticsCore values (normalizeWeights weights)

/-- The function `_statistics` over the reals, square root included: it
returns the pair `(mean, stddev)` with `stddev = np.sqrt(numerator/(1-w2))`. -/
noncomputable def statistics (values : List (List ℝ)) (weights : List ℝ) : ℝ × ℝ :=
  ((statisticsAux values weights).1, Real.sqrt (statisticsAux values weights).2)

/-! #### Generic list lemmas used to rewrite the accumulator loops -/

theorem foldl_add_map {α K : Type} [AddCommMonoid K] (f : α → K) :
    ∀ (l : List α) (a : K), l.foldl (fun acc x => acc + f x) a = a + (l.map f).sum := by
  intro l
  induction l with
  | nil => intro a; simp
  | cons x xs ih =>
      intro a
      simp only [List.foldl_cons, List.map_cons, List.sum_cons, ih, add_assoc]

theorem sum_map_eq_sum_range {α K : Type} [AddCommMonoid K] (f : α → K) (d : α) :
    ∀ l : List α, (l.map f).sum = ∑ i ∈ Finset.range l.length, f (l.getD i d) := by
  intro l
  induction l with
  | nil => simp
  | cons x xs ih =>
      simp only [List.map_cons, List.sum_cons, List.length_cons,
        Finset.sum_range_succ' (fun i => f ((x :: xs).getD i d)),
        List.getD_cons_succ, List.getD_cons_zero, ih, add_comm]

theorem sum_eq_sum_range {K : Type} [AddCommMonoid K] (l : List K) :
    l.sum = ∑ i ∈ Finset.range l.length, l.getD i 0 := by
  have h := sum_map_eq_sum_range (fun x : K => x) 0 l
  simpa using h

/-! #### Structure lemmas for the zipped `(row, weight)` list -/

theorem zip_norm_getD {K : Type} [Field K] (values : List (List K))
    (weights : List K) (hlen : values.length = weights.length) (i : ℕ)
    (hi : i < values.length) :
    (values.zip (normalizeWeights weights)).getD i ([], 0)
      = (values.getD i [], weights.getD i 0 / weights.sum) := by
  have hnw : (normalizeWeights weights).length = weights.length := by
    simp [normalizeWeights]
  have hzlen : (values.zip (normalizeWeights weights)).length = values.length := by
    simp [List.length_zip, hnw, hlen]
  have hiz : i < (values.zip (normalizeWeights weights)).length := by omega
  have hiw : i < weights.length := by omega
  have hinw : i < (normalizeWeights weights).length := by omega
  rw [List.getD_eq_getElem _ _ hiz, List.getElem_zip]
  rw [List.getD_eq_getElem _ _ hi, List.getD_eq_getElem _ _ hiw]
  have : (normalizeWeights weights)[i] = weights[i] / weights.sum := by
    simp [normalizeWeights]
  rw [this]

theorem lastRowLen_zip_eq {K : Type} (values : List (List K)) (nws : List K)
    (N : ℕ) (hrows : ∀ row ∈ values, row.length = N)
    (hne : values ≠ []) (hlen : nws.length = values.length) :
    lastRowLen (values.zip nws) = N := by
  have hzlen : (values.zip nws).length = values.length := by
    simp [List.length_zip, hlen]
  have hpos : 0 < values.length := List.length_pos.mpr hne
  have hidx : values.length - 1 < (values.zip nws).length := by omega
  have hidxv : values.length - 1 < values.length := by omega
  unfold lastRowLen
  rw [List.getLast?_eq_getElem?, hzlen]
  rw [List.getElem?_eq_getElem hidx]
  simp only [Option.map_some', Option.getD_some]
  rw [List.getElem_zip]
  exact hrows _ (List.getElem_mem hidxv)

theorem zip_norm_fold_sum {K : Type} [Field K] (f : List K × K → K)
    (values : List (List K)) (weights : List K)
    (hlen : values.length = weights.length) :
    (values.zip (normalizeWeights weights)).foldl (fun acc p => acc + f p) 0
      = ∑ i ∈ Finset.range values.length,
          f (values.getD i [], weights.getD i 0 / weights.sum) := by
  have hnw : (normalizeWeights weights).length = weights.length := by
    simp [normalizeWeights]
  have hzlen : (values.zip (normalizeWeights weights)).length = values.length := by
    simp [List.length_zip, hnw, hlen]
  rw [foldl_add_map, sum_map_eq_sum_range f ([], 0), hzlen, zero_add]
  refine Finset.sum_congr rfl ?_
  intro i hi
  rw [zip_norm_getD values weights hlen i (Finset.mem_range.mp hi)]

/-! #### Characterization of the two components of `_statistics` -/

theorem statisticsAux_fst {K : Type} [Field K] (values : List (List K))
    (weights : List K) (M N : ℕ) (hv : values.length = M)
    (hw : weights.length = M) (hrows : ∀ row ∈ values, row.length = N)
    (hM : 0 < M) :
    (statisticsAux values weights).1
      = (∑ i ∈ Finset.range M,
          (weights.getD i 0 / weights.sum) * (values.getD i []).sum) / (N : K) := by
  have hlen : values.length = weights.length := by rw [hv, hw]
  have hne : values ≠ [] := by
    intro h; rw [h] at hv; simp at hv; omega
  have hnwlen : (normalizeWeights weights).length = values.length := by
    simp [normalizeWeights, hlen]
  have hlast : lastRowLen (values.zip (normalizeWeights weights)) = N :=
    lastRowLen_zip_eq values (normalizeWeights weights) N hrows hne hnwlen
  have hfold := zip_norm_fold_sum (fun p => p.2 * p.1.sum) values weights hlen
  simp only [statisticsAux, statisticsCore, hlast, hfold, hv]

theorem statisticsAux_snd {K : Type} [Field K] (values : List (List K))
    (weights : List K) (M N : ℕ) (hv : values.length = M)
    (hw : weights.length = M) (hrows : ∀ row ∈ values, row.length = N)
    (hM : 0 < M) :
    (statisticsAux values weights).2
      = ((∑ i ∈ Finset.range M, (weights.getD i 0 / weights.sum) *
            ((values.getD i []).map
              (fun v => (v - (statisticsAux values weights).1)
                      * (v - (statisticsAux values weights).1))).sum) / (N : K))
        / (1 - (∑ i ∈ Finset.range M,
            (weights.getD i 0 / weights.sum) * (weights.getD i 0 / weights.sum)) / (N : K)) := by
  have hlen : values.length = weights.length := by rw [hv, hw]
  have hne : values ≠ [] := by
    intro h; rw [h] at hv; simp at hv; omega
  have hnwlen : (normalizeWeights weights).length = values.length := by
    simp [normalizeWeights, hlen]
  have hlast : lastRowLen (values.zip (normalizeWeights weights)) = N :=
    lastRowLen_zip_eq values (normalizeWeights weights) N hrows hne hnwlen
  have hmean := statisticsAux_fst values weights M N hv hw hrows hM
  have hfoldm := zip_norm_fold_sum (fun p => p.2 * p.1.sum) values weights hlen
  have hfoldw := zip_norm_fold_sum (fun p => p.2 * p.2) values weights hlen
  have hfoldn := zip_norm_fold_sum
    (fun p => p.2 * ((p.1.map
      (fun v => (v - (statisticsAux values weights).1)
              * (v - (statisticsAux values weights).1))).sum)) values weights hlen
  rw [hmean] at hfoldn
  simp only [statisticsAux, statisticsCore, hlast, hfoldm, hfoldw, hfoldn, hv]

/-! #### Specification-side formulas, written from the words of the spec -/

/-- Weighted mean exactly as the specification words it: the sum over
locations `i` of the normalized weight times the sum over realizations `j`
of `value[i,j]`, divided by `N`. -/
def specWeightedMean {K : Type} [Field K] (values : List (List K))
    (weights : List K) (M N : ℕ) : K :=
  (∑ i ∈ Finset.range M, (weights.getD i 0 / weights.sum) *
      ∑ j ∈ Finset.range N, (values.getD i []).getD j 0) / (N : K)

/-- Variance (the square of the claimed standard deviation) exactly as claim
C1 words it: numerator `Σᵢ wᵢ·Σⱼ(value[i,j]-mean)²`, divided by `N`, divided
again by `(1 - Σᵢ wᵢ²)`, with no further division of the weight-squared
sum. -/
def claimVariance {K : Type} [Field K] (values : List (List K))
    (weights : List K) (M N : ℕ) : K :=
  ((∑ i ∈ Finset.range M, (weights.getD i 0 / weights.sum) *
      ∑ j ∈ Finset.range N,
        ((values.getD i []).getD j 0 - specWeightedMean values weights M N) ^ 2) / (N : K))
    / (1 - ∑ i ∈ Finset.range M, (weights.getD i 0 / weights.sum) ^ 2)

/-- Variance as the code actually computes it: identical to `claimVariance`
except that the weight-squared sum is itself divided by `N` before being
subtracted from 1 (line 72 of hvsr_spatial.py, `w2 /= len(row_value)`). -/
def amendedVariance {K : Type} [Field K] (values : List (List K))
    (weights : List K) (M N : ℕ) : K :=
  ((∑ i ∈ Finset.range M, (weights.getD i 0 / weights.sum) *
      ∑ j ∈ Finset.range N,
        ((values.getD i []).getD j 0 - specWeightedMean values weights M N) ^ 2) / (N : K))
    / (1 - (∑ i ∈ Finset.range M, (weights.getD i 0 / weights.sum) ^ 2) / (N : K))

/-- Row sums can be expanded into index sums once all rows have length `N`. -/
theorem rowSum_expand {K : Type} [Field K] (values : List (List K)) (M N : ℕ)
    (hv : values.length = M) (hrows : ∀ row ∈ values, row.length = N)
    (i : ℕ) (hi : i < M) :
    (values.getD i []).sum
      = ∑ j ∈ Finset.range N, (values.getD i []).getD j 0 := by
  have hiv : i < values.length := by omega
  have hmem : values.getD i [] ∈ values := by
    rw [List.getD_eq_getElem _ _ hiv]
    exact List.getElem_mem hiv
  have hlenrow : (values.getD i []).length = N := hrows _ hmem
  rw [sum_eq_sum_range, hlenrow]

theorem rowSqSum_expand {K : Type} [Field K] (values : List (List K))
    (M N : ℕ) (hv : values.length = M)
    (hrows : ∀ row ∈ values, row.length = N) (m : K) (i : ℕ) (hi : i < M) :
    ((values.getD i []).map (fun v => (v - m) * (v - m))).sum
      = ∑ j ∈ Finset.range N, ((values.getD i []).getD j 0 - m) ^ 2 := by
  have hiv : i < values.length := by omega
  have hmem : values.getD i [] ∈ values := by
    rw [List.getD_eq_getElem _ _ hiv]
    exact List.getElem_mem hiv
  have hlenrow : (values.getD i []).length = N := hrows _ hmem
  rw [sum_map_eq_sum_range (fun v => (v - m) * (v - m)) 0, hlenrow]
  refine Finset.sum_congr rfl ?_
  intro j hj
  ring

/-- The code mean agrees with the specification's weighted-mean formula. -/
theorem statisticsAux_fst_spec {K : Type} [Field K] (values : List (List K))
    (weights : List K) (M N : ℕ) (hv : values.length = M)
    (hw : weights.length = M) (hrows : ∀ row ∈ values, row.length = N)
    (hM : 0 < M) :
    (statisticsAux values weights).1 = specWeightedMean values weights M N := by
  rw [statisticsAux_fst values weights M N hv hw hrows hM, specWeightedMean]
  congr 1
  refine Finset.sum_congr rfl ?_
  intro i hi
  rw [rowSum_expand values M N hv hrows i (Finset.mem_range.mp hi)]

/-- The argument of the final square root of `_statistics` agrees with the
amended variance formula (weight-squared sum divided by `N`). -/
theorem statisticsAux_snd_spec {K : Type} [Field K] (values : List (List K))
    (weights : List K) (M N : ℕ) (hv : values.length = M)
    (hw : weights.length = M) (hrows : ∀ row ∈ values, row.length = N)
    (hM : 0 < M) :
    (statisticsAux values weights).2 = amendedVariance values weights M N := by
  rw [statisticsAux_snd values weights M N hv hw hrows hM, amendedVariance]
  have hm := statisticsAux_fst_spec values weights M N hv hw hrows hM
  congr 1
  · congr 1
    refine Finset.sum_congr rfl ?_
    intro i hi
    rw [rowSqSum_expand values M N hv hrows ((statisticsAux values weights).1)
      i (Finset.mem_range.mp hi), hm]
  · congr 2
    refine Finset.sum_congr rfl ?_
    intro i hi
    ring

/-- Positive total weight forces at least one weight, hence `0 < M`. -/
theorem pos_length_of_pos_sum {K : Type} [LinearOrderedField K]
    (weights : List K) (M : ℕ) (hw : weights.length = M)
    (hsum : 0 < weights.sum) : 0 < M := by
  rcases Nat.eq_zero_or_pos M with h | h
  · subst h
    have hnil : weights = [] := List.length_eq_zero.mp hw
    rw [hnil] at hsum
    simp at hsum
  · exact h

/-- Sum of a list divided elementwise by a common scalar. -/
theorem sum_map_div {K : Type} [Field K] (l : List K) (S : K) :
    (l.map (fun x => x / S)).sum = l.sum / S := by
  induction l with
  | nil => simp
  | cons x xs ih => simp [ih, add_div]

/-- C2: for every M-by-N value matrix and every length-M weight vector with
positive sum, the weighted mean returned by `_statistics` equals the sum over
locations `i` of (normalized weight `i` times the sum over realizations `j`
of `value[i,j]`), divided by `N`, where the normalized weights are the input
weights divided by their sum. -/
theorem claim_C2_weighted_mean (values : List (List ℚ)) (weights : List ℚ)
    (M N : ℕ) (hv : values.length = M) (hw : weights.length = M)
    (hrows : ∀ row ∈ values, row.length = N) (hsum : 0 < weights.sum) :
    (statisticsAux values weights).1 = specWeightedMean values weights M N :=
  statisticsAux_fst_spec values weights M N hv hw hrows
    (pos_length_of_pos_sum weights M hw hsum)

theorem claim_C2_weighted_mean_witness :
    0 < ([1, 3] : List ℚ).sum ∧
    (statisticsAux [[1, 2], [3, 4]] [1, 3] : ℚ × ℚ).1
      = specWeightedMean [[1, 2], [3, 4]] [1, 3] 2 2 :=
  ⟨by norm_num, claim_C2_weighted_mean [[1, 2], [3, 4]] [1, 3] 2 2 rfl rfl
    (by simp) (by norm_num)⟩

/-- C1 counterexample: at values `[[0,2],[0,2]]` and weights `[1,1]` the
standard deviation computed by `_statistics` is `√(4/3)` while C1's formula —
with no further division of the weight-squared sum by `N` — gives `√2`, so
the claim as stated is false on the code. -/
theorem claim_C1_counterexample :
    Real.sqrt (((statisticsAux [[0, 2], [0, 2]] [1, 1] : ℚ × ℚ).2 : ℝ))
      ≠ Real.sqrt ((claimVariance [[0, 2], [0, 2]] [1, 1] 2 2 : ℚ) : ℝ) := by
  have h1 : (statisticsAux [[0, 2], [0, 2]] [1, 1] : ℚ × ℚ).2 = 4 / 3 := by
    norm_num [statisticsAux, statisticsCore, normalizeWeights, lastRowLen]
  have h2 : (claimVariance [[0, 2], [0, 2]] [1, 1] 2 2 : ℚ) = 2 := by
    norm_num [claimVariance, specWeightedMean, Finset.sum_range_succ]
  rw [h1, h2]
  have hlt : ((4 / 3 : ℚ) : ℝ) < ((2 : ℚ) : ℝ) := by norm_num
  exact ne_of_lt (Real.sqrt_lt_sqrt (by positivity) hlt)

/-- C1 (amended): the weighted standard deviation returned by `_statistics`
equals the square root of [ (Σᵢ normalized_weightᵢ · Σⱼ (value[i,j]-mean)²),
divided by N, divided again by (1 - (Σᵢ normalized_weightᵢ²)/N) ] — the
weight-squared sum is itself divided by `N` before the subtraction from 1. -/
theorem claim_C1_weighted_stddev (values : List (List ℚ)) (weights : List ℚ)
    (M N : ℕ) (hv : values.length = M) (hw : weights.length = M)
    (hrows : ∀ row ∈ values, row.length = N) (hsum : 0 < weights.sum) :
    (statisticsAux values weights).2 = amendedVariance values weights M N ∧
    Real.sqrt (((statisticsAux values weights).2 : ℚ) : ℝ)
      = Real.sqrt ((amendedVariance values weights M N : ℚ) : ℝ) := by
  have h := statisticsAux_snd_spec values weights M N hv hw hrows
    (pos_length_of_pos_sum weights M hw hsum)
  exact ⟨h, by rw [h]⟩

theorem claim_C1_weighted_stddev_witness :
    0 < ([1, 1] : List ℚ).sum ∧
    (statisticsAux [[0, 2], [0, 2]] [1, 1] : ℚ × ℚ).2
      = amendedVariance [[0, 2], [0, 2]] [1, 1] 2 2 :=
  ⟨by norm_num, (claim_C1_weighted_stddev [[0, 2], [0, 2]] [1, 1] 2 2 rfl rfl
    (by simp) (by norm_num)).1⟩

/-- C10: `_statistics` is scale-invariant in its weights — multiplying every
weight by a positive scalar `c` changes neither the weighted mean nor the
weighted standard deviation. -/
theorem claim_C10_weight_scale_invariance (values : List (List ℚ))
    (weights : List ℚ) (c : ℚ) (hc : 0 < c) (hsum : 0 < weights.sum) :
    statisticsAux values (weights.map (fun w => c * w)) = statisticsAux values weights ∧
    Real.sqrt (((statisticsAux values (weights.map (fun w => c * w))).2 : ℚ) : ℝ)
      = Real.sqrt (((statisticsAux values weights).2 : ℚ) : ℝ) := by
  have hnorm : normalizeWeights (weights.map (fun w => c * w))
      = normalizeWeights weights := by
    unfold normalizeWeights
    have hsum2 : (weights.map (fun w => c * w)).sum = c * weights.sum := by
      have h := List.sum_map_mul_left weights (fun w => w) c
      simpa using h
    rw [List.map_map, hsum2]
    apply List.map_congr_left
    intro w _
    simp only [Function.comp_apply]
    exact mul_div_mul_left w weights.sum (ne_of_gt hc)
  refine ⟨?_, ?_⟩
  · unfold statisticsAux
    rw [hnorm]
  · unfold statisticsAux
    rw [hnorm]

theorem claim_C10_weight_scale_invariance_witness :
    (0 : ℚ) < 2 ∧ 0 < ([1, 3] : List ℚ).sum ∧
    statisticsAux [[1, 2], [3, 4]] (([1, 3] : List ℚ).map (fun w => 2 * w))
      = statisticsAux [[1, 2], [3, 4]] [1, 3] :=
  ⟨by norm_num, by norm_num,
    (claim_C10_weight_scale_invariance [[1, 2], [3, 4]] [1, 3] 2
      (by norm_num) (by norm_num)).1⟩

/-! ### `_voronoi_weights` (hvsr_spatial.py, lines 228-245) -/

/-- Final step of `HvsrSpatial._voronoi_weights` (line 245): the clipped
Voronoi-region areas are divided by the total mask area,
`return (areas/total_area, indices)`.  The areas themselves come from the
external geometry library (`shapely`'s `Polygon(...).area` over the clipped
regions), which is a collaborator outside this embedding; they enter here as
data. -/
def voronoiWeights (areas : List ℚ) (totalArea : ℚ) : List ℚ :=
  areas.map (fun a => a / totalArea)

/-- C5: every normalized weight vector of the pipeline is non-negative and
sums to 1: (a) the weights computed inside `_statistics` (inputs divided by
their sum, for non-negative inputs with positive sum) sum exactly to 1 and
are non-negative; (b) the geometric weights of `_voronoi_weights` (clipped
area over total mask area, the clipped regions tiling the mask so that their
areas add up to the total area) are non-negative and sum to 1. -/
theorem claim_C5_weight_vector_invariant (weights : List ℚ) (areas : List ℚ)
    (totalArea : ℚ) (hwpos : ∀ w ∈ weights, 0 ≤ w) (hwsum : 0 < weights.sum)
    (hapos : ∀ a ∈ areas, 0 ≤ a) (hasum : areas.sum = totalArea)
    (htot : 0 < totalArea) :
    ((normalizeWeights weights).sum = 1 ∧ ∀ x ∈ normalizeWeights weights, 0 ≤ x)
    ∧ ((voronoiWeights areas totalArea).sum = 1
        ∧ ∀ x ∈ voronoiWeights areas totalArea, 0 ≤ x) := by
  refine ⟨⟨?_, ?_⟩, ?_, ?_⟩
  · rw [normalizeWeights, sum_map_div, div_self (ne_of_gt hwsum)]
  · intro x hx
    rw [normalizeWeights, List.mem_map] at hx
    obtain ⟨w, hwmem, rfl⟩ := hx
    exact div_nonneg (hwpos w hwmem) (le_of_lt hwsum)
  · rw [voronoiWeights, sum_map_div, hasum, div_self (ne_of_gt htot)]
  · intro x hx
    rw [voronoiWeights, List.mem_map] at hx
    obtain ⟨a, hamem, rfl⟩ := hx
    exact div_nonneg (hapos a hamem) (le_of_lt htot)

theorem claim_C5_weight_vector_invariant_witness :
    0 < ([1, 3] : List ℚ).sum ∧ ([2, 2] : List ℚ).sum = 4 ∧
    ((normalizeWeights ([1, 3] : List ℚ)).sum = 1
      ∧ ∀ x ∈ normalizeWeights ([1, 3] : List ℚ), 0 ≤ x)
    ∧ ((voronoiWeights [2, 2] 4).sum = 1
      ∧ ∀ x ∈ voronoiWeights [2, 2] 4, 0 ≤ x) :=
  ⟨by norm_num, by norm_num,
    claim_C5_weight_vector_invariant [1, 3] [2, 2] 4
      (by intro w hw; fin_cases hw <;> norm_num) (by norm_num)
      (by intro a ha; fin_cases ha <;> norm_num) (by norm_num) (by norm_num)⟩

/-! ### `montecarlo_fn` (hvsr_spatial.py, lines 78-152) -/

/-- Deterministic model of a `numpy` random generator: `stream k mean stddev`
is the `k`-th normal variate the generator would produce for parameters
`(mean, stddev)` and `counter` is the amount of state already consumed.  A
call `rng.normal(mean, stddev, size)` reads `size` consecutive stream
positions and advances the counter. -/
structure RNG where
  stream : ℕ → ℝ → ℝ → ℝ
  counter : ℕ

/-- Samples returned by one call `rng.normal(mean, stddev, size)`. -/
def RNG.normalDraws (g : RNG) (mean stddev : ℝ) (size : ℕ) : List ℝ :=
  (List.range size).map (fun i => g.stream (g.counter + i) mean stddev)

/-- Generator state after one call `rng.normal(_, _, size)`. -/
def RNG.advance (g : RNG) (size : ℕ) : RNG :=
  ⟨g.stream, g.counter + size⟩

/-- Realization-filling loop of `montecarlo_fn` (lines 135-137): one row of
`n` normal draws per `(mean, stddev)` pair, consuming the generator row by
row; returns the matrix and the final generator state. -/
def drawRealizations : RNG → List (ℝ × ℝ) → ℕ → List (List ℝ) × RNG
  | g, [], _ => ([], g)
  | g, p :: rest, n =>
      let row := g.normalDraws p.1 p.2 n
      let next := drawRealizations (g.advance n) rest n
      (row :: next.1, next.2)

/-- Python exceptions raised by the spatial module. -/
inductive PyError where
  | notImplementedError (msg : String)
deriving DecidableEq

/-- Return triple `(fn_mean, fn_stddev, fn_realizations)` of `montecarlo_fn`. -/
structure MCResult where
  fn_mean : ℝ
  fn_stddev : ℝ
  fn_realizations : List (List ℝ)

/-- The function `montecarlo_fn` (lines 78-152).  The `rng=None` default of
the Python signature stands for a fresh generator; here the generator is
explicit, and the pair returned carries the generator state after the call
(unchanged when an exception is raised, since both validation checks precede
all drawing).  Raised exceptions are modelled by `Except.error`. -/
noncomputable def montecarlo_fn (generator_means generator_stddevs generator_weights : List ℝ)
    (distribution_generators distribution_spatial : String)
    (n_realizations : ℕ) (g : RNG) : Except PyError MCResult × RNG :=
  if distribution_generators ∉ ["normal", "lognormal"] then
    (Except.error (PyError.notImplementedError
      ("dist_generators = " ++ distribution_generators ++ " not recognized.")), g)
  else if distribution_spatial ∉ ["normal", "lognormal"] then
    (Except.error (PyError.notImplementedError
      ("dist_spatial = " ++ distribution_spatial ++ " not recognized.")), g)
  else
    let drawn := drawRealizations g (generator_means.zip generator_stddevs) n_realizations
    let realizations :=
      if distribution_generators = "lognormal" ∧ distribution_spatial = "normal" then
        drawn.1.map (fun row => row.map Real.exp)
      else if distribution_generators = "normal" ∧ distribution_spatial = "lognormal" then
        drawn.1.map (fun row => row.map Real.log)
      else
        drawn.1
    let stats := statistics realizations generator_weights
    if distribution_spatial = "lognormal" then
      (Except.ok ⟨Real.exp stats.1, stats.2, realizations.map (fun row => row.map Real.exp)⟩,
        drawn.2)
    else
      (Except.ok ⟨stats.1, stats.2, realizations⟩, drawn.2)

/-! ### `HvsrSpatial.spatial_weights` (hvsr_spatial.py, lines 186-211) -/

/-- The method `spatial_weights`: dispatch on the declustering method.  The
voronoi branch's geometric result `self._voronoi_weights(boundary)` enters
as a parameter, since it is produced by the geometry collaborators; the
non-voronoi branch raises a bare `NotImplementedError`. -/
def spatial_weights (voronoi_result : List ℚ × List ℕ)
    (declustering_method : String) : Except PyError (List ℚ × List ℕ) :=
  if declustering_method = "voronoi" then Except.ok voronoi_result
  else Except.error (PyError.notImplementedError "")

/-- C3: the pre-weighting transform of `montecarlo_fn` is exponentiation for
(generators=lognormal, spatial=normal), logarithm for (generators=normal,
spatial=lognormal) and the identity for matching kinds; whenever
spatial=lognormal, the returned mean and every returned realization are
exponentiated out of log-space while the returned stddev is not. -/
theorem claim_C3_distribution_transforms (means stddevs weights : List ℝ)
    (dg ds : String) (n : ℕ) (g : RNG)
    (hg : dg ∈ ["normal", "lognormal"]) (hs : ds ∈ ["normal", "lognormal"]) :
    (dg = "lognormal" → ds = "normal" →
      montecarlo_fn means stddevs weights dg ds n g
        = (Except.ok
            ⟨(statistics ((drawRealizations g (means.zip stddevs) n).1.map
                (fun r => r.map Real.exp)) weights).1,
             (statistics ((drawRealizations g (means.zip stddevs) n).1.map
                (fun r => r.map Real.exp)) weights).2,
             (drawRealizations g (means.zip stddevs) n).1.map
                (fun r => r.map Real.exp)⟩,
           (drawRealizations g (means.zip stddevs) n).2))
    ∧ (dg = "normal" → ds = "lognormal" →
      montecarlo_fn means stddevs weights dg ds n g
        = (Except.ok
            ⟨Real.exp ((statistics ((drawRealizations g (means.zip stddevs) n).1.map
                (fun r => r.map Real.log)) weights).1),
             (statistics ((drawRealizations g (means.zip stddevs) n).1.map
                (fun r => r.map Real.log)) weights).2,
             ((drawRealizations g (means.zip stddevs) n).1.map
                (fun r => r.map Real.log)).map (fun r => r.map Real.exp)⟩,
           (drawRealizations g (means.zip stddevs) n).2))
    ∧ (dg = "normal" → ds = "normal" →
      montecarlo_fn means stddevs weights dg ds n g
        = (Except.ok
            ⟨(statistics (drawRealizations g (means.zip stddevs) n).1 weights).1,
             (statistics (drawRealizations g (means.zip stddevs) n).1 weights).2,
             (drawRealizations g (means.zip stddevs) n).1⟩,
           (drawRealizations g (means.zip stddevs) n).2))
    ∧ (dg = "lognormal" → ds = "lognormal" →
      montecarlo_fn means stddevs weights dg ds n g
        = (Except.ok
            ⟨Real.exp ((statistics (drawRealizations g (means.zip stddevs) n).1 weights).1),
             (statistics (drawRealizations g (means.zip stddevs) n).1 weights).2,
             (drawRealizations g (means.zip stddevs) n).1.map
                (fun r => r.map Real.exp)⟩,
           (drawRealizations g (means.zip stddevs) n).2)) := by
  refine ⟨?_, ?_, ?_, ?_⟩ <;> rintro rfl rfl <;> simp [montecarlo_fn]

theorem claim_C3_distribution_transforms_witness :
    ("lognormal" ∈ (["normal", "lognormal"] : List String)) ∧
    montecarlo_fn [0] [1] [1] "lognormal" "normal" 2
        ⟨fun k m s => m + s * (k : ℝ), 0⟩
      = (Except.ok
          ⟨(statistics ((drawRealizations ⟨fun k m s => m + s * (k : ℝ), 0⟩
              (([0] : List ℝ).zip [1]) 2).1.map (fun r => r.map Real.exp)) [1]).1,
           (statistics ((drawRealizations ⟨fun k m s => m + s * (k : ℝ), 0⟩
              (([0] : List ℝ).zip [1]) 2).1.map (fun r => r.map Real.exp)) [1]).2,
           (drawRealizations ⟨fun k m s => m + s * (k : ℝ), 0⟩
              (([0] : List ℝ).zip [1]) 2).1.map (fun r => r.map Real.exp)⟩,
         (drawRealizations ⟨fun k m s => m + s * (k : ℝ), 0⟩
            (([0] : List ℝ).zip [1]) 2).2) :=
  ⟨by simp,
   (claim_C3_distribution_transforms [0] [1] [1] "lognormal" "normal" 2
      ⟨fun k m s => m + s * (k : ℝ), 0⟩ (by simp) (by simp)).1 rfl rfl⟩

/-- C4: `montecarlo_fn` raises `NotImplementedError` exactly when one of the
two distribution kinds lies outside {normal, lognormal}, and
`spatial_weights` raises exactly when the declustering method is not
"voronoi"; in both cases the call produces an error and no result. -/
theorem claim_C4_unsupported_configuration (means stddevs weights : List ℝ)
    (dg ds : String) (n : ℕ) (g : RNG) (vres : List ℚ × List ℕ)
    (method : String) :
    ((∃ msg, (montecarlo_fn means stddevs weights dg ds n g).1
        = Except.error (PyError.notImplementedError msg))
      ↔ (dg ∉ ["normal", "lognormal"] ∨ ds ∉ ["normal", "lognormal"]))
    ∧ ((∃ msg, spatial_weights vres method
        = Except.error (PyError.notImplementedError msg))
      ↔ method ≠ "voronoi") := by
  constructor
  · by_cases h1 : dg ∈ ["normal", "lognormal"]
    · by_cases h2 : ds ∈ ["normal", "lognormal"]
      · have h1' : ¬dg ∉ ["normal", "lognormal"] := not_not_intro h1
        have h2' : ¬ds ∉ ["normal", "lognormal"] := not_not_intro h2
        simp only [montecarlo_fn, if_neg h1', if_neg h2']
        constructor
        · intro hcontra
          obtain ⟨msg, hmsg⟩ := hcontra
          by_cases h3 : ds = "lognormal" <;> simp [h3] at hmsg
        · intro hcontra
          exact absurd hcontra (by simp [h1, h2])
      · simp only [montecarlo_fn, if_neg (not_not_intro h1), if_pos h2]
        simp [h2]
    · simp only [montecarlo_fn, if_pos h1]
      simp [h1]
  · unfold spatial_weights
    by_cases h : method = "voronoi" <;> simp [h]

/-- C8: `montecarlo_fn` is deterministic given its randomness source — two
calls with identical parameters and identically-seeded generators (same
stream and same consumed-state counter) return identical triples and
identical final generator states. -/
theorem claim_C8_deterministic (means stddevs weights : List ℝ)
    (dg ds : String) (n : ℕ) (g1 g2 : RNG) (hstream : g1.stream = g2.stream)
    (hcounter : g1.counter = g2.counter) :
    montecarlo_fn means stddevs weights dg ds n g1
      = montecarlo_fn means stddevs weights dg ds n g2 := by
  obtain ⟨s1, c1⟩ := g1
  obtain ⟨s2, c2⟩ := g2
  cases hstream
  cases hcounter
  rfl

theorem claim_C8_deterministic_witness :
    montecarlo_fn [0] [1] [1] "lognormal" "lognormal" 3
        ⟨fun k m s => m + s * (k : ℝ), 5⟩
      = montecarlo_fn [0] [1] [1] "lognormal" "lognormal" 3
        ⟨fun k m s => m + s * (k : ℝ), 5⟩ :=
  claim_C8_deterministic [0] [1] [1] "lognormal" "lognormal" 3
    ⟨fun k m s => m + s * (k : ℝ), 5⟩ ⟨fun k m s => m + s * (k : ℝ), 5⟩ rfl rfl

/-- C9: `montecarlo_fn` validates both distribution kinds before drawing any
samples — on the error exit the generator state is unchanged (no draws
consumed) and no realization matrix is produced. -/
theorem claim_C9_error_exit_atomic (means stddevs weights : List ℝ)
    (dg ds : String) (n : ℕ) (g : RNG)
    (h : dg ∉ ["normal", "lognormal"] ∨ ds ∉ ["normal", "lognormal"]) :
    (montecarlo_fn means stddevs weights dg ds n g).2 = g ∧
    ∃ msg, (montecarlo_fn means stddevs weights dg ds n g).1
      = Except.error (PyError.notImplementedError msg) := by
  by_cases h1 : dg ∉ ["normal", "lognormal"]
  · have ha : montecarlo_fn means stddevs weights dg ds n g
        = (Except.error (PyError.notImplementedError
            ("dist_generators = " ++ dg ++ " not recognized.")), g) := by
      simp only [montecarlo_fn, if_pos h1]
    rw [ha]
    exact ⟨rfl, _, rfl⟩
  · have h2 : ds ∉ ["normal", "lognormal"] := h.resolve_left h1
    have ha : montecarlo_fn means stddevs weights dg ds n g
        = (Except.error (PyError.notImplementedError
            ("dist_spatial = " ++ ds ++ " not recognized.")), g) := by
      simp only [montecarlo_fn, if_neg h1, if_pos h2]
    rw [ha]
    exact ⟨rfl, _, rfl⟩

theorem claim_C9_error_exit_atomic_witness :
    ("uniform" ∉ (["normal", "lognormal"] : List String)
      ∨ "normal" ∉ (["normal", "lognormal"] : List String)) ∧
    ((montecarlo_fn [0] [1] [1] "uniform" "normal" 3
        ⟨fun k m s => m + s * (k : ℝ), 0⟩).2
      = ⟨fun k m s => m + s * (k : ℝ), 0⟩ ∧
     ∃ msg, (montecarlo_fn [0] [1] [1] "uniform" "normal" 3
        ⟨fun k m s => m + s * (k : ℝ), 0⟩).1
      = Except.error (PyError.notImplementedError msg)) :=
  ⟨Or.inl (by simp), claim_C9_error_exit_atomic [0] [1] [1] "uniform" "normal" 3
    ⟨fun k m s => m + s * (k : ℝ), 0⟩ (Or.inl (by simp))⟩

/-! ### `HvsrSpatial._cull_points` (hvsr_spatial.py, lines 247-262) -/

/-- The method `_cull_points`: keep the coordinates contained in the mask
together with their original indices, in input order.  The shapely test
`mask.contains(Point(x, y))` is a geometry collaborator and enters as a
Boolean predicate on coordinates; the `logger.info` call on the discarded
branch is a pure side effect and is dropped. -/
def cull_points (contains : ℚ × ℚ → Bool) (coordinates : List (ℚ × ℚ)) :
    List (ℚ × ℚ) × List ℕ :=
  coordinates.enum.foldl
    (fun acc ixy =>
      if contains ixy.2 then (acc.1 ++ [ixy.2], acc.2 ++ [ixy.1]) else acc)
    ([], [])

theorem cull_points_loop (contains : ℚ × ℚ → Bool) :
    ∀ (l : List (ℚ × ℚ)) (k : ℕ) (acc : List (ℚ × ℚ) × List ℕ),
    (List.enumFrom k l).foldl
      (fun acc ixy =>
        if contains ixy.2 then (acc.1 ++ [ixy.2], acc.2 ++ [ixy.1]) else acc) acc
      = (acc.1 ++ l.filter contains,
         acc.2 ++ ((List.enumFrom k l).filter (fun p => contains p.2)).map Prod.fst) := by
  intro l
  induction l with
  | nil => intro k acc; simp
  | cons x xs ih =>
      intro k acc
      rw [List.enumFrom_cons, List.foldl_cons]
      by_cases hx : contains x
      · rw [if_pos (by simpa using hx), ih]
        simp [List.filter_cons, hx]
      · rw [if_neg (by simpa using hx), ih]
        simp [List.filter_cons, hx]

theorem enumFrom_fst_lb {α : Type} :
    ∀ (l : List α) (k : ℕ) (p : ℕ × α), p ∈ List.enumFrom k l → k ≤ p.1 := by
  intro l
  induction l with
  | nil => intro k p hp; simp at hp
  | cons x xs ih =>
      intro k p hp
      rw [List.enumFrom_cons, List.mem_cons] at hp
      rcases hp with rfl | hp
      · exact le_refl k
      · exact Nat.le_of_succ_le (ih (k + 1) p hp)

theorem enumFrom_pairwise_lt {α : Type} :
    ∀ (l : List α) (k : ℕ),
    List.Pairwise (fun a b : ℕ × α => a.1 < b.1) (List.enumFrom k l) := by
  intro l
  induction l with
  | nil => intro k; simp
  | cons x xs ih =>
      intro k
      rw [List.enumFrom_cons]
      refine List.Pairwise.cons ?_ (ih (k + 1))
      intro p hp
      exact Nat.lt_of_succ_le (enumFrom_fst_lb xs (k + 1) p hp)

theorem enumFrom_filter_length (contains : ℚ × ℚ → Bool) :
    ∀ (l : List (ℚ × ℚ)) (k : ℕ),
    ((List.enumFrom k l).filter (fun p => contains p.2)).length
      = (l.filter contains).length := by
  intro l
  induction l with
  | nil => intro k; simp
  | cons x xs ih =>
      intro k
      rw [List.enumFrom_cons, List.filter_cons, List.filter_cons]
      by_cases hx : contains x
      · simp only [hx]
        simp [ih]
      · simp only [hx]
        simp [ih]

/-- C7: `_cull_points` returns exactly the subsequence of input coordinates
contained in the mask together with their original indices, order-preserving
with strictly increasing indices; a coordinate strictly outside the mask
never appears among the returned points or indices (and hence gets no slot
in the weight vector, which carries one entry per returned index). -/
theorem claim_C7_cull_points (contains : ℚ × ℚ → Bool)
    (coordinates : List (ℚ × ℚ)) :
    (cull_points contains coordinates).1 = coordinates.filter contains
    ∧ (cull_points contains coordinates).2
        = (coordinates.enum.filter (fun p => contains p.2)).map Prod.fst
    ∧ List.Pairwise (· < ·) (cull_points contains coordinates).2
    ∧ (∀ xy ∈ (cull_points contains coordinates).1, contains xy = true)
    ∧ (∀ i, i < coordinates.length → contains (coordinates.getD i (0, 0)) = false →
        i ∉ (cull_points contains coordinates).2)
    ∧ (cull_points contains coordinates).2.length
        = (cull_points contains coordinates).1.length := by
  have hloop := cull_points_loop contains coordinates 0 ([], [])
  have h1 : (cull_points contains coordinates).1 = coordinates.filter contains := by
    unfold cull_points
    rw [show coordinates.enum = List.enumFrom 0 coordinates from rfl, hloop]
    simp
  have h2 : (cull_points contains coordinates).2
      = (coordinates.enum.filter (fun p => contains p.2)).map Prod.fst := by
    unfold cull_points
    rw [show coordinates.enum = List.enumFrom 0 coordinates from rfl, hloop]
    simp
  refine ⟨h1, h2, ?_, ?_, ?_, ?_⟩
  · rw [h2]
    rw [List.pairwise_map]
    exact (enumFrom_pairwise_lt coordinates 0).filter _
  · intro xy hxy
    rw [h1] at hxy
    exact List.of_mem_filter hxy
  · intro i hi hout hmem
    rw [h2, List.mem_map] at hmem
    obtain ⟨p, hpfil, hpi⟩ := hmem
    rw [List.mem_filter] at hpfil
    obtain ⟨hpenum, hpcont⟩ := hpfil
    rw [List.mem_enum_iff_getElem?] at hpenum
    rw [hpi] at hpenum
    rw [List.getElem?_eq_getElem hi] at hpenum
    have hp2 : p.2 = coordinates[i] := by
      injection hpenum with h
      exact h.symm
    rw [List.getD_eq_getElem _ _ hi] at hout
    rw [hp2] at hpcont
    rw [hout] at hpcont
    exact Bool.false_ne_true hpcont
  · rw [h1, h2, List.length_map]
    exact enumFrom_filter_length contains coordinates 0

theorem claim_C7_cull_points_witness :
    (1 : ℕ) < 2 ∧
    1 ∉ (cull_points (fun _ => false) [((0 : ℚ), (0 : ℚ)), (1, 1)]).2 :=
  ⟨by norm_num,
   (claim_C7_cull_points (fun _ => false) [((0 : ℚ), (0 : ℚ)), (1, 1)]).2.2.2.2.1
     1 (by norm_num) rfl⟩

/-! ### `HvsrSpatial._voronoi_finite_polygons_2d` (hvsr_spatial.py, lines 325-413) -/

/-- Planar point: an `(x, y)` pair of reals. -/
abbrev Point := ℝ × ℝ

noncomputable def padd (a b : Point) : Point := (a.1 + b.1, a.2 + b.2)

noncomputable def psub (a b : Point) : Point := (a.1 - b.1, a.2 - b.2)

noncomputable def smul (r : ℝ) (p : Point) : Point := (r * p.1, r * p.2)

noncomputable def sdiv (p : Point) (r : ℝ) : Point := (p.1 / r, p.2 / r)

noncomputable def pdot (a b : Point) : ℝ := a.1 * b.1 + a.2 * b.2

/-- Euclidean norm, `np.linalg.norm`. -/
noncomputable def pnorm (p : Point) : ℝ := Real.sqrt (p.1 * p.1 + p.2 * p.2)

/-- The function `np.sign`. -/
noncomputable def npSign (x : ℝ) : ℝ := if 0 < x then 1 else if x < 0 then -1 else 0

/-- Column-wise mean of a list of points, `array.mean(axis=0)`. -/
noncomputable def pmean (l : List Point) : Point :=
  ((l.map Prod.fst).sum / (l.length : ℝ), (l.map Prod.snd).sum / (l.length : ℝ))

/-- Python list indexing with its negative-wrapping semantics (`lst[-1]` is
the last element); out-of-range indices yield the origin here, while Python
would raise. -/
noncomputable def pyGet (l : List Point) (i : Int) : Point :=
  if 0 ≤ i then l.getD i.toNat (0, 0) else l.getD (l.length - (-i).toNat) (0, 0)

/-- The function `np.arctan2 y x` (four-quadrant arctangent). -/
noncomputable def arctan2 (y x : ℝ) : ℝ :=
  if 0 < x then Real.arctan (y / x)
  else if x < 0 then
    (if 0 ≤ y then Real.arctan (y / x) + Real.pi else Real.arctan (y / x) - Real.pi)
  else
    (if 0 < y then Real.pi / 2 else if y < 0 then -(Real.pi / 2) else 0)

/-- Attributes of a `scipy.spatial.Voronoi` object consumed by
`_voronoi_finite_polygons_2d`: generating points, finite region vertices,
ridge endpoint pairs with the matching vertex-index pairs (`-1` marks a
vertex at infinity), and the map from input point to its region's vertex
index list. -/
structure VoronoiDiagram where
  points : List Point
  vertices : List Point
  ridge_points : List (ℕ × ℕ)
  ridge_vertices : List (Int × Int)
  point_region : List ℕ
  regions : List (List Int)

/-- The `all_ridges` map of lines 365-368: for point `p1`, each ridge
incident to `p1` contributes `(other endpoint, v1, v2)`, in ridge order. -/
def allRidges (vor : VoronoiDiagram) (p1 : ℕ) : List (ℕ × Int × Int) :=
  (vor.ridge_points.zip vor.ridge_vertices).filterMap
    (fun r =>
      if r.1.1 = p1 then some (r.1.2, r.2.1, r.2.2)
      else if r.1.2 = p1 then some (r.1.1, r.2.1, r.2.2)
      else none)

/-- Lines 390-399: missing endpoint of an infinite ridge.  `v2` is the index
of the ridge's finite vertex (after the swap of line 385). -/
noncomputable def farPoint (vor : VoronoiDiagram) (center : Point) (radius : ℝ)
    (p1 p2 : ℕ) (v2 : Int) : Point :=
  let t0 := psub (vor.points.getD p2 (0, 0)) (vor.points.getD p1 (0, 0))
  let t := sdiv t0 (pnorm t0)
  let n : Point := (-t.2, t.1)
  let midpoint := sdiv (padd (vor.points.getD p1 (0, 0)) (vor.points.getD p2 (0, 0))) 2
  let direction := smul (npSign (pdot (psub midpoint center) n)) n
  padd (pyGet vor.vertices v2) (smul radius direction)

/-- Ridge loop of lines 383-402: for each ridge of `p1` whose (possibly
swapped) first vertex index is negative, append the index of a fresh vertex
to the region and the corresponding far point to the vertex arena. -/
noncomputable def processRidges (vor : VoronoiDiagram) (center : Point) (radius : ℝ)
    (p1 : ℕ) : List (ℕ × Int × Int) → List Int → List Point → List Int × List Point
  | [], region, nv => (region, nv)
  | r :: rest, region, nv =>
      let v1 := if r.2.2 < 0 then r.2.2 else r.2.1
      let v2 := if r.2.2 < 0 then r.2.1 else r.2.2
      if 0 ≤ v1 then processRidges vor center radius p1 rest region nv
      else
        processRidges vor center radius p1 rest (region ++ [(nv.length : Int)])
          (nv ++ [farPoint vor center radius p1 r.1 v2])

/-- Centroid `c = vs.mean(axis=0)` of a region's vertex coordinates
(line 406). -/
noncomputable def regionCentroid (nv : List Point) (region : List Int) : Point :=
  pmean (region.map (fun v => pyGet nv v))

/-- Counter-clockwise reordering of lines 404-408: sort the region's vertex
indices by the polar angle `np.arctan2(vs[:,1]-c[1], vs[:,0]-c[0])` about
the centroid of the region's vertices. -/
noncomputable def sortRegionByAngle (nv : List Point) (region : List Int) : List Int :=
  region.mergeSort (fun a b =>
    decide (arctan2 ((pyGet nv a).2 - (regionCentroid nv region).2)
              ((pyGet nv a).1 - (regionCentroid nv region).1)
          ≤ arctan2 ((pyGet nv b).2 - (regionCentroid nv region).2)
              ((pyGet nv b).1 - (regionCentroid nv region).1)))

/-- Region produced for one entry `(p1, region index)` of
`enumerate(vor.point_region)` (lines 371-411), given the current vertex
arena `nv`: a fully finite region is kept unchanged, otherwise the kept
finite vertices plus the synthesized far-point indices are sorted by polar
angle. -/
noncomputable def regionResult (vor : VoronoiDiagram) (center : Point) (radius : ℝ)
    (nv : List Point) (pr : ℕ × ℕ) : List Int :=
  let vertices := vor.regions.getD pr.2 []
  if vertices.all (fun v => decide (0 ≤ v)) then vertices
  else
    let res := processRidges vor center radius pr.1 (allRidges vor pr.1)
      (vertices.filter (fun v => decide (0 ≤ v))) nv
    sortRegionByAngle res.2 res.1

/-- Vertex arena after one entry of the main loop: unchanged for a finite
region, extended by the synthesized far points otherwise. -/
noncomputable def nvAfter (vor : VoronoiDiagram) (center : Point) (radius : ℝ)
    (nv : List Point) (pr : ℕ × ℕ) : List Point :=
  let vertices := vor.regions.getD pr.2 []
  if vertices.all (fun v => decide (0 ≤ v)) then nv
  else
    (processRidges vor center radius pr.1 (allRidges vor pr.1)
      (vertices.filter (fun v => decide (0 ≤ v))) nv).2

/-- One iteration of the loop over `enumerate(vor.point_region)`: append the
new region and update the vertex arena. -/
noncomputable def processPoint (vor : VoronoiDiagram) (center : Point) (radius : ℝ)
    (acc : List (List Int) × List Point) (pr : ℕ × ℕ) : List (List Int) × List Point :=
  (acc.1 ++ [regionResult vor center radius acc.2 pr],
   nvAfter vor center radius acc.2 pr)

/-- The function `_voronoi_finite_polygons_2d` (lines 325-413): reconstruct
a finite region for every input point.  `new_vertices` starts as
`vor.vertices.tolist()` and `center` is `vor.points.mean(axis=0)`; `radius`
is taken as given (hvsrpy always passes `radius=1E6`, so the `None` default
of line 361 is not exercised). -/
noncomputable def voronoi_finite_polygons_2d (vor : VoronoiDiagram) (radius : ℝ) :
    List (List Int) × List Point :=
  vor.point_region.enum.foldl (processPoint vor (pmean vor.points) radius)
    ([], vor.vertices)

/-! #### Specification-side formulation of the far-point construction -/

/-- Rotation by 90 degrees, as the spec words it. -/
noncomputable def rot90 (p : Point) : Point := (-p.2, p.1)

/-- Unit vector in the direction of `p`, as the spec words it. -/
noncomputable def unitVec (p : Point) : Point := smul (1 / pnorm p) p

/-- Synthesized vertex exactly as claim C6 words it: the ridge's finite
vertex plus `sign * normal * radius`, where the normal is the 90-degree
rotation of the unit direction vector between the two generating points and
the sign is the sign of the dot product of (ridge midpoint minus point-set
centroid) with that normal. -/
noncomputable def farPointSpec (vor : VoronoiDiagram) (center : Point) (radius : ℝ)
    (p1 p2 : ℕ) (vf : Int) : Point :=
  let a := vor.points.getD p1 (0, 0)
  let b := vor.points.getD p2 (0, 0)
  let normal := rot90 (unitVec (psub b a))
  let midpoint := smul (1 / 2) (padd a b)
  let sign := npSign (pdot (psub midpoint center) normal)
  padd (pyGet vor.vertices vf) (smul (sign * radius) normal)

/-- Infinite ridges of a ridge list, with the index of each one's finite
vertex: after the swap of line 385, a ridge contributes exactly when its
(swapped) first vertex index is negative. -/
def infiniteRidges (ridges : List (ℕ × Int × Int)) : List (ℕ × Int) :=
  ridges.filterMap (fun r =>
    if r.2.2 < 0 then some (r.1, r.2.1)
    else if r.2.1 < 0 then some (r.1, r.2.2)
    else none)

theorem sdiv_eq_smul (p : Point) (r : ℝ) : sdiv p r = smul (1 / r) p := by
  unfold sdiv smul
  refine Prod.ext ?_ ?_ <;> simp <;> ring

theorem smul_twice (r s : ℝ) (p : Point) : smul r (smul s p) = smul (s * r) p := by
  unfold smul
  refine Prod.ext ?_ ?_ <;> simp <;> ring

/-- The far point computed by the code coincides with the far point as the
specification words it. -/
theorem farPoint_eq_spec (vor : VoronoiDiagram) (center : Point) (radius : ℝ)
    (p1 p2 : ℕ) (vf : Int) :
    farPoint vor center radius p1 p2 vf = farPointSpec vor center radius p1 p2 vf := by
  simp only [farPoint, farPointSpec, rot90, unitVec, sdiv_eq_smul, smul_twice]

/-- Closed form of the ridge loop: the region is extended with the
consecutive fresh indices, the arena with one far point per infinite
ridge. -/
theorem processRidges_eq (vor : VoronoiDiagram) (center : Point) (radius : ℝ)
    (p1 : ℕ) :
    ∀ (ridges : List (ℕ × Int × Int)) (region : List Int) (nv : List Point),
    processRidges vor center radius p1 ridges region nv
      = (region ++ (List.range (infiniteRidges ridges).length).map
            (fun i => ((nv.length + i : ℕ) : Int)),
         nv ++ (infiniteRidges ridges).map
            (fun q => farPoint vor center radius p1 q.1 q.2)) := by
  intro ridges
  induction ridges with
  | nil =>
      intro region nv
      simp [processRidges, infiniteRidges]
  | cons r rest ih =>
      intro region nv
      by_cases h2 : r.2.2 < 0
      · have hstep : processRidges vor center radius p1 (r :: rest) region nv
            = processRidges vor center radius p1 rest (region ++ [(nv.length : Int)])
                (nv ++ [farPoint vor center radius p1 r.1 r.2.1]) := by
          simp only [processRidges, if_pos h2]
          rw [if_neg (by omega)]
        have hinf : infiniteRidges (r :: rest) = (r.1, r.2.1) :: infiniteRidges rest := by
          simp only [infiniteRidges, List.filterMap_cons, if_pos h2]
        rw [hstep, ih, hinf]
        refine Prod.ext ?_ ?_
        · simp only [List.append_assoc, List.singleton_append, List.length_append,
            List.length_cons, List.length_nil, List.length_map]
          congr 1
          rw [List.range_succ_eq_map, List.map_cons, List.map_map]
          simp only [Nat.add_zero, List.cons.injEq, Nat.cast_inj]
          refine ⟨by trivial, ?_⟩
          apply List.map_congr_left
          intro i _
          simp only [Function.comp_apply, Nat.succ_eq_add_one]
          congr 1
          omega
        · simp
      · by_cases h1 : r.2.1 < 0
        · have hstep : processRidges vor center radius p1 (r :: rest) region nv
              = processRidges vor center radius p1 rest (region ++ [(nv.length : Int)])
                  (nv ++ [farPoint vor center radius p1 r.1 r.2.2]) := by
            simp only [processRidges, if_neg h2]
            rw [if_neg (by omega)]
          have hinf : infiniteRidges (r :: rest) = (r.1, r.2.2) :: infiniteRidges rest := by
            simp only [infiniteRidges, List.filterMap_cons, if_neg h2, if_pos h1]
          rw [hstep, ih, hinf]
          refine Prod.ext ?_ ?_
          · simp only [List.append_assoc, List.singleton_append, List.length_append,
              List.length_cons, List.length_nil, List.length_map]
            congr 1
            rw [List.range_succ_eq_map, List.map_cons, List.map_map]
            simp only [Nat.add_zero, List.cons.injEq, Nat.cast_inj]
            refine ⟨by trivial, ?_⟩
            apply List.map_congr_left
            intro i _
            simp only [Function.comp_apply, Nat.succ_eq_add_one]
            congr 1
            omega
          · simp
        · have hstep : processRidges vor center radius p1 (r :: rest) region nv
              = processRidges vor center radius p1 rest region nv := by
            simp only [processRidges, if_neg h2]
            rw [if_pos (by omega)]
          have hinf : infiniteRidges (r :: rest) = infiniteRidges rest := by
            simp only [infiniteRidges, List.filterMap_cons, if_neg h2, if_neg h1]
          rw [hstep, ih, hinf]

/-! #### The main loop only ever appends one region per point -/

theorem foldl_processPoint_shape (vor : VoronoiDiagram) (center : Point) (radius : ℝ) :
    ∀ (l : List (ℕ × ℕ)) (rs : List (List Int)) (nv : List Point),
    (l.foldl (processPoint vor center radius) (rs, nv)).1
      = rs ++ (l.foldl (processPoint vor center radius) ([], nv)).1 := by
  intro l
  induction l with
  | nil => intro rs nv; simp
  | cons pr rest ih =>
      intro rs nv
      rw [List.foldl_cons, List.foldl_cons]
      show (rest.foldl (processPoint vor center radius)
          (rs ++ [regionResult vor center radius nv pr],
           nvAfter vor center radius nv pr)).1 = _
      rw [ih (rs ++ [regionResult vor center radius nv pr])]
      show _ = rs ++ (rest.foldl (processPoint vor center radius)
          ([] ++ [regionResult vor center radius nv pr],
           nvAfter vor center radius nv pr)).1
      rw [ih ([] ++ [regionResult vor center radius nv pr])]
      simp

theorem foldl_processPoint_getD (vor : VoronoiDiagram) (center : Point) (radius : ℝ) :
    ∀ (l : List (ℕ × ℕ)) (nv : List Point) (k : ℕ), k < l.length →
    ∃ nv2, ((l.foldl (processPoint vor center radius) ([], nv)).1).getD k []
      = regionResult vor center radius nv2 (l.getD k (0, 0)) := by
  intro l
  induction l with
  | nil => intro nv k hk; simp at hk
  | cons pr rest ih =>
      intro nv k hk
      rw [List.foldl_cons]
      show ∃ nv2, ((rest.foldl (processPoint vor center radius)
          ([] ++ [regionResult vor center radius nv pr],
           nvAfter vor center radius nv pr)).1).getD k [] = _
      rw [foldl_processPoint_shape vor center radius rest]
      cases k with
      | zero =>
          refine ⟨nv, ?_⟩
          simp
      | succ k =>
          have hk2 : k < rest.length := by
            simp only [List.length_cons] at hk
            omega
          obtain ⟨nv2, hnv2⟩ := ih (nvAfter vor center radius nv pr) k hk2
          refine ⟨nv2, ?_⟩
          rw [List.nil_append, List.getD_append_right _ _ _ _ (by simp)]
          simpa using hnv2

/-! #### The angular sort is a permutation sorted by polar angle -/

theorem sortRegionByAngle_perm (nv : List Point) (region : List Int) :
    (sortRegionByAngle nv region).Perm region := by
  unfold sortRegionByAngle
  exact List.mergeSort_perm region _

theorem sortRegionByAngle_sorted (nv : List Point) (region : List Int) :
    List.Pairwise (fun a b =>
      arctan2 ((pyGet nv a).2 - (regionCentroid nv region).2)
          ((pyGet nv a).1 - (regionCentroid nv region).1)
        ≤ arctan2 ((pyGet nv b).2 - (regionCentroid nv region).2)
            ((pyGet nv b).1 - (regionCentroid nv region).1))
      (sortRegionByAngle nv region) := by
  unfold sortRegionByAngle
  have h := @List.sorted_mergeSort Int
    (fun a b : Int =>
      decide (arctan2 ((pyGet nv a).2 - (regionCentroid nv region).2)
              ((pyGet nv a).1 - (regionCentroid nv region).1)
            ≤ arctan2 ((pyGet nv b).2 - (regionCentroid nv region).2)
              ((pyGet nv b).1 - (regionCentroid nv region).1)))
    (fun a b c hab hbc => by
      simp only [decide_eq_true_eq] at hab hbc ⊢
      exact le_trans hab hbc)
    (fun a b => by
      simp only [Bool.or_eq_true, decide_eq_true_eq]
      exact le_total _ _)
    region
  exact h.imp (fun hab => by simpa using hab)

/-- C6: for every Voronoi decomposition handed to
`_voronoi_finite_polygons_2d`: (a) a region whose vertex indices are all
non-negative is emitted unchanged at its point's position; (b) a region with
a vertex at infinity is rebuilt from its kept finite vertices plus one fresh
vertex per infinite ridge, each fresh vertex placed at the ridge's finite
vertex plus sign·normal·radius with the normal the 90-degree rotation of the
unit direction between the two generating points and the sign that of the
dot product of (ridge midpoint − point-set centroid) with the normal, and
the rebuilt index list is then reordered by polar angle; (c) the angular
reordering is a permutation of its input sorted by polar angle about the
vertices' centroid. -/
theorem claim_C6_finite_region_reconstruction (vor : VoronoiDiagram) (radius : ℝ) :
    (∀ k, k < vor.point_region.length →
      (vor.regions.getD (vor.point_region.getD k 0) []).all
          (fun v => decide (0 ≤ v)) = true →
      ((voronoi_finite_polygons_2d vor radius).1).getD k []
        = vor.regions.getD (vor.point_region.getD k 0) [])
    ∧ (∀ k, k < vor.point_region.length →
      (vor.regions.getD (vor.point_region.getD k 0) []).all
          (fun v => decide (0 ≤ v)) = false →
      ∃ nv, ((voronoi_finite_polygons_2d vor radius).1).getD k []
        = sortRegionByAngle
            (nv ++ (infiniteRidges (allRidges vor k)).map
              (fun q => farPointSpec vor (pmean vor.points) radius k q.1 q.2))
            (((vor.regions.getD (vor.point_region.getD k 0) []).filter
                (fun v => decide (0 ≤ v)))
              ++ (List.range (infiniteRidges (allRidges vor k)).length).map
                  (fun i => ((nv.length + i : ℕ) : Int))))
    ∧ (∀ nv region, (sortRegionByAngle nv region).Perm region)
    ∧ (∀ nv region, List.Pairwise (fun a b =>
        arctan2 ((pyGet nv a).2 - (regionCentroid nv region).2)
            ((pyGet nv a).1 - (regionCentroid nv region).1)
          ≤ arctan2 ((pyGet nv b).2 - (regionCentroid nv region).2)
              ((pyGet nv b).1 - (regionCentroid nv region).1))
        (sortRegionByAngle nv region)) := by
  have hget : ∀ k, k < vor.point_region.length →
      ∃ nv2, ((voronoi_finite_polygons_2d vor radius).1).getD k []
        = regionResult vor (pmean vor.points) radius nv2
            (k, vor.point_region.getD k 0) := by
    intro k hk
    have hkenum : k < vor.point_region.enum.length := by
      rw [List.enum_length]; exact hk
    obtain ⟨nv2, hnv2⟩ := foldl_processPoint_getD vor (pmean vor.points) radius
      vor.point_region.enum vor.vertices k hkenum
    refine ⟨nv2, ?_⟩
    rw [voronoi_finite_polygons_2d, hnv2]
    congr 1
    rw [List.getD_eq_getElem _ _ hkenum, List.getElem_enum,
      List.getD_eq_getElem _ _ hk]
  refine ⟨?_, ?_, sortRegionByAngle_perm, sortRegionByAngle_sorted⟩
  · intro k hk hall
    obtain ⟨nv2, hnv2⟩ := hget k hk
    rw [hnv2, regionResult]
    simp only [if_pos hall]
  · intro k hk hall
    obtain ⟨nv2, hnv2⟩ := hget k hk
    refine ⟨nv2, ?_⟩
    rw [hnv2, regionResult]
    simp only [hall, Bool.false_eq_true, if_false]
    rw [processRidges_eq]
    dsimp only
    congr 1
    congr 1
    apply List.map_congr_left
    intro q _
    exact farPoint_eq_spec vor (pmean vor.points) radius k q.1 q.2

theorem claim_C6_finite_region_reconstruction_witness :
    (0 : ℕ) < 1 ∧
    ((voronoi_finite_polygons_2d
        ⟨[((0 : ℝ), (0 : ℝ)), (1, 0), (0, 1)], [(1, 1)], [], [], [0], [[0]]⟩
        10).1).getD 0 []
      = [0] :=
  ⟨by norm_num,
   (claim_C6_finite_region_reconstruction
      ⟨[((0 : ℝ), (0 : ℝ)), (1, 0), (0, 1)], [(1, 1)], [], [], [0], [[0]]⟩
      10).1 0 (by simp) (by simp)⟩

end Hvsrpy
